import Mathlib

/-!
Shallow embedding of the Go package `intset` (file `intset.go`).

An `IntSet` stores a growable sequence of unsigned machine words; bit `b`
of word `w` encodes membership of the integer `w * N + b`.  The source
fixes the word width `N` at build time to the platform word size (32 or
64); we instantiate the 64-bit platform.  Go `uint` words are modelled as
`Nat`; every operation below only ever combines words with `&&&`, `|||`,
`^^^`, and-not, and shifts `1 <<< b` with `b < N`, none of which can
overflow the word width, so no explicit truncation is needed.

Non-negative Go `int` arguments are modelled as `Nat` (the claims under
study quantify only over non-negative elements; negative input is
explicitly out of domain in the source).
-/

/-- Word width. The source sets it to the platform word size; we take the
64-bit platform. -/
def N : Nat := 64

/-- The Go struct: `type IntSet struct \x7b words []uint \x7d`. -/
structure IntSet where
  words : List Nat
deriving DecidableEq, Repr

namespace IntSet

/-- Function `Has` (intset.go:19-22): `word < len(s.words) && s.words[word]&(1<<bit) != 0`. -/
def Has (s : IntSet) (x : Nat) : Bool :=
  decide (x / N < s.words.length) && ((s.words.getD (x / N) 0) &&& (1 <<< (x % N)) != 0)

/-- Function `Add` (intset.go:25-31): grow with zero words until index `x/N` exists,
then OR in the bit.  The Go loop `for word >= len(s.words)` appends zero
words until the length is `max (len s.words) (word+1)`, i.e. appends
`word + 1 - len` zeros. -/
def Add (s : IntSet) (x : Nat) : IntSet :=
  let word := x / N
  let grown := s.words ++ List.replicate (word + 1 - s.words.length) 0
  ⟨grown.set word ((grown.getD word 0) ||| (1 <<< (x % N)))⟩

/-- Function `AddAll` (intset.go:34-38): add each value in order. -/
def AddAll (s : IntSet) (vals : List Nat) : IntSet :=
  vals.foldl Add s

/-- Go's `&^` (AND-NOT) on an `N`-bit word: `a AND (NOT b)`, where `NOT`
is the `N`-bit complement, i.e. XOR with the all-ones word `2^N - 1`.
Every mask the source applies it to is `1 << bit` with `bit < N`, so the
operand is always an `N`-bit value and this is exactly the Go operation. -/
def andNot (a b : Nat) : Nat := a &&& (b ^^^ (2 ^ N - 1))

/-- Function `UnionWith` (intset.go:41-49).  The loop ORs `t.words[i]` into shared
indices and appends `t`'s extra words verbatim; receiver words past `t`'s
length are untouched.  Denotationally: the OR of the shared prefix,
followed by whichever operand's tail is longer (at most one of the two
`drop`s is nonempty). -/
def UnionWith (s t : IntSet) : IntSet :=
  ⟨List.zipWith (fun a b => a ||| b) s.words t.words
    ++ s.words.drop t.words.length ++ t.words.drop s.words.length⟩

/-- Function `IntersectWith` (intset.go:52-59).  The loop runs over `t.words` but
breaks as soon as `i >= len(s.words)`, ANDing in place on the shared
prefix; receiver words at indices `>= len(t.words)` are left unchanged
(the loop never reaches them). -/
def IntersectWith (s t : IntSet) : IntSet :=
  ⟨List.zipWith (fun a b => a &&& b) s.words t.words ++ s.words.drop t.words.length⟩

/-- Function `DifferenceWith` (intset.go:62-69): AND-NOT on the shared prefix,
receiver tail untouched. -/
def DifferenceWith (s t : IntSet) : IntSet :=
  ⟨List.zipWith (fun a b => andNot a b) s.words t.words ++ s.words.drop t.words.length⟩

/-- Function `SymmetricDifference` (intset.go:72-80): XOR on shared indices, `t`'s
extra words appended verbatim. -/
def SymmetricDifference (s t : IntSet) : IntSet :=
  ⟨List.zipWith (fun a b => a ^^^ b) s.words t.words
    ++ s.words.drop t.words.length ++ t.words.drop s.words.length⟩

/-- One step of the `String` loop body (intset.go:94-97): write a space if
the buffer already holds more than the opening brace, then the decimal
digits of the element. -/
def emit (buf : String) (e : Nat) : String :=
  (if 1 < buf.length then buf ++ " " else buf) ++ toString e

/-- Function `String` (intset.go:83-102): open brace, then for each nonzero word
and each set bit, space-separate and print `i*N + j`, then close brace. -/
def String' (s : IntSet) : String :=
  (s.words.enum.foldl (fun buf p =>
    if p.2 == 0 then buf
    else (List.range N).foldl (fun buf j =>
      if p.2 &&& (1 <<< j) == 0 then buf else emit buf (p.1 * N + j)) buf) "\x7b") ++ "\x7d"

/-- Function `Len` (intset.go:105-118): count set bits, skipping zero words. -/
def Len (s : IntSet) : Nat :=
  s.words.foldl (fun n word =>
    if word == 0 then n
    else (List.range N).foldl (fun n j => if word &&& (1 <<< j) != 0 then n + 1 else n) n) 0

/-- Function `Remove` (intset.go:121-127): return unchanged if the word index is
out of range, else clear the bit with AND-NOT. -/
def Remove (s : IntSet) (x : Nat) : IntSet :=
  let word := x / N
  if s.words.length ≤ word then s
  else ⟨s.words.set word (andNot (s.words.getD word 0) (1 <<< (x % N)))⟩

/-- Function `Clear` (intset.go:130-132): `s.words = nil`. -/
def Clear (_ : IntSet) : IntSet := ⟨[]⟩

/-- Function `Copy` (intset.go:135-140), value level: the returned set holds the
same word contents.  The freshness of its backing array is modelled by
`CopyH` on the explicit heap below. -/
def Copy (s : IntSet) : IntSet := ⟨s.words⟩

/-- Function `Elems` (intset.go:143-153): collect `i*N + j` for every set bit, in
word order then bit order. -/
def Elems (s : IntSet) : List Nat :=
  s.words.enum.foldl (fun res p =>
    (List.range N).foldl (fun res j =>
      if p.2 &&& (1 <<< j) != 0 then res ++ [p.1 * N + j] else res) res) []

/-!
Heap model for slice aliasing.  A `Heap` is the collection of live backing
arrays; an `IntSet` variable is the index of the array its `words` slice
points at.  `Add`/`Remove` on a variable rewrite only that variable's
array (Go's `append` may move the array, but the struct's slice header is
updated in place, so the variable still owns exactly one array and no
other variable is affected).  `Copy` is `make` + `copy` (intset.go:137-138):
it allocates a fresh array — a fresh heap slot — holding the same words.
-/

abbrev Heap := List (List Nat)

/-- The words array owned by the variable at heap index `p`. -/
def heapGet (h : Heap) (p : Nat) : List Nat := h.getD p []

/-- Function `Add` applied through the variable at index `p`. -/
def AddH (h : Heap) (p : Nat) (x : Nat) : Heap :=
  h.set p (Add ⟨heapGet h p⟩ x).words

/-- Function `Remove` applied through the variable at index `p`. -/
def RemoveH (h : Heap) (p : Nat) (x : Nat) : Heap :=
  h.set p (Remove ⟨heapGet h p⟩ x).words

/-- Function `Copy` (intset.go:135-140) through the heap: allocate a fresh array
with the same contents and return its (fresh) index. -/
def CopyH (h : Heap) (p : Nat) : Heap × Nat :=
  (h ++ [heapGet h p], h.length)

/-!  Specification-side definitions (used only to state claims). -/

/-- The members of `s` in ascending order: every member `x` satisfies
`x / N < len words`, hence `x < len words * N`, and filtering `range`
preserves ascending order. -/
def membersAsc (s : IntSet) : List Nat :=
  (List.range (s.words.length * N)).filter (fun x => Has s x)

/-- Space-separated decimal rendering of a list of elements, following
the spec's words: members separated by single spaces. -/
def renderElems : List Nat → String
  | [] => ""
  | [x] => toString x
  | x :: y :: rest => toString x ++ " " ++ renderElems (y :: rest)

/-- The set bit positions of word `w`, ascending. -/
def bitsOf (w : Nat) : List Nat :=
  (List.range N).filter (fun j => w &&& (1 <<< j) != 0)

/-- The elements contributed by word `w` at word index `i`, ascending. -/
def wordElems (i w : Nat) : List Nat :=
  (bitsOf w).map (fun j => i * N + j)

/-- The elements contributed by a word list whose first word has word
index `n`, in word order then bit order. -/
def elemsFrom : Nat → List Nat → List Nat
  | _, [] => []
  | n, w :: ws => wordElems n w ++ elemsFrom (n + 1) ws

/-- The tail of a space-separated rendering: a leading space before each
element. -/
def sepRender : List Nat → String
  | [] => ""
  | x :: xs => " " ++ toString x ++ sepRender xs

end IntSet


/-!  Generic list and bit-level helper lemmas. -/

namespace IntSet

theorem getD_oob : ∀ (l : List Nat) (i : Nat), l.length ≤ i → l.getD i 0 = 0
  | [], _, _ => rfl
  | _ :: l, i + 1, h => getD_oob l i (Nat.le_of_succ_le_succ h)

theorem getD_replicate_zero : ∀ (k i : Nat), (List.replicate k 0).getD i 0 = 0
  | 0, _ => rfl
  | _ + 1, 0 => rfl
  | k + 1, i + 1 => getD_replicate_zero k i

theorem getD_append_replicate_zero :
    ∀ (ws : List Nat) (k i : Nat), (ws ++ List.replicate k 0).getD i 0 = ws.getD i 0
  | [], k, i => by rw [List.nil_append]; exact getD_replicate_zero k i
  | _ :: _, _, 0 => rfl
  | _ :: ws, k, i + 1 => getD_append_replicate_zero ws k i

theorem getD_set_self : ∀ (l : List Nat) (i : Nat) (v : Nat), i < l.length →
    (l.set i v).getD i 0 = v
  | _ :: _, 0, _, _ => rfl
  | _ :: l, i + 1, v, h => getD_set_self l i v (Nat.lt_of_succ_lt_succ h)

theorem getD_set_ne : ∀ (l : List Nat) (i j : Nat) (v : Nat), j ≠ i →
    (l.set i v).getD j 0 = l.getD j 0
  | [], _, _, _, _ => rfl
  | _ :: _, 0, 0, _, h => absurd rfl h
  | _ :: _, 0, _ + 1, _, _ => rfl
  | _ :: _, _ + 1, 0, _, _ => rfl
  | _ :: l, i + 1, j + 1, v, h =>
    getD_set_ne l i j v (fun e => h (congrArg Nat.succ e))

theorem and_shift_ne_zero (w b : Nat) : (w &&& (1 <<< b) != 0) = w.testBit b := by
  rw [Nat.shiftLeft_eq, Nat.one_mul]
  cases h : w.testBit b with
  | false => simp [Nat.and_two_pow, h]
  | true => simp [Nat.and_two_pow, h, Nat.pos_iff_ne_zero, Nat.two_pow_pos]

theorem testBit_andNot (a b k : Nat) (hk : k < N) :
    (andNot a b).testBit k = (a.testBit k && !(b.testBit k)) := by
  simp [andNot, Nat.testBit_land, Nat.testBit_xor, Nat.testBit_two_pow_sub_one, hk]

/-- Membership depends only on the word read (with default zero) at the
element's word index: the out-of-range guard and the default agree. -/
theorem has_eq_testBit (s : IntSet) (x : Nat) :
    Has s x = (s.words.getD (x / N) 0).testBit (x % N) := by
  by_cases h : x / N < s.words.length
  · simp [Has, h, and_shift_ne_zero]
  · rw [getD_oob _ _ (Nat.le_of_not_lt h), Nat.zero_testBit]
    simp [Has, h]

/-- The word read at any index after the merge-style loops (shared prefix
combined with `f`, then the longer operand's tail verbatim), for any `f`
with `0` as a two-sided identity. -/
theorem getD_merge (f : Nat → Nat → Nat) (h1 : ∀ y, f 0 y = y) (h2 : ∀ x, f x 0 = x) :
    ∀ (a b : List Nat) (i : Nat),
      (List.zipWith f a b ++ a.drop b.length ++ b.drop a.length).getD i 0
        = f (a.getD i 0) (b.getD i 0)
  | [], b, i => by
    cases b with
    | nil => simp [getD_oob, h1]
    | cons y b => cases i <;> simp [h1]
  | x :: a, [], i => by cases i <;> simp [h2, getD_merge f h1 h2 (a := a) (b := [])]
  | x :: a, y :: b, 0 => rfl
  | x :: a, y :: b, i + 1 => by
    simpa using getD_merge f h1 h2 a b i

theorem getD_union (s t : IntSet) (i : Nat) :
    (UnionWith s t).words.getD i 0 = (s.words.getD i 0) ||| (t.words.getD i 0) :=
  getD_merge _ Nat.zero_or Nat.or_zero s.words t.words i

theorem getD_symmDiff (s t : IntSet) (i : Nat) :
    (SymmetricDifference s t).words.getD i 0 = (s.words.getD i 0) ^^^ (t.words.getD i 0) :=
  getD_merge _ Nat.zero_xor Nat.xor_zero s.words t.words i

/-- The word read at any index after `Add`. -/
theorem getD_add (s : IntSet) (x i : Nat) :
    (Add s x).words.getD i 0 =
      if i = x / N then (s.words.getD i 0) ||| (1 <<< (x % N)) else s.words.getD i 0 := by
  have hlen : x / N < (s.words ++ List.replicate (x / N + 1 - s.words.length) 0).length := by
    simp only [List.length_append, List.length_replicate]
    omega
  by_cases h : i = x / N
  · subst h
    simp only [Add]
    rw [getD_set_self _ _ _ hlen, getD_append_replicate_zero]
    simp
  · simp only [Add, if_neg h]
    rw [getD_set_ne _ _ _ _ h, getD_append_replicate_zero]

/-- The word read at any index after `Remove`. -/
theorem getD_remove (s : IntSet) (x i : Nat) :
    (Remove s x).words.getD i 0 =
      if i = x / N then andNot (s.words.getD i 0) (1 <<< (x % N)) else s.words.getD i 0 := by
  by_cases hr : s.words.length ≤ x / N
  · have hoob : s.words.getD (x / N) 0 = 0 := getD_oob _ _ hr
    simp only [Remove, if_pos hr]
    by_cases h : i = x / N
    · subst h
      rw [if_pos rfl, hoob, andNot, Nat.zero_and]
    · rw [if_neg h]
  · simp only [Remove, if_neg hr]
    by_cases h : i = x / N
    · subst h
      rw [if_pos rfl, getD_set_self _ _ _ (Nat.lt_of_not_le hr)]
    · rw [if_neg h, getD_set_ne _ _ _ _ h]

end IntSet

/-!  Membership after point mutations and binary operations. -/

namespace IntSet

theorem has_add_self (s : IntSet) (x : Nat) : Has (Add s x) x = true := by
  rw [has_eq_testBit, getD_add, if_pos rfl, Nat.shiftLeft_eq, Nat.one_mul,
    Nat.testBit_lor, Nat.testBit_two_pow_self, Bool.or_true]

theorem has_remove_self (s : IntSet) (x : Nat) : Has (Remove s x) x = false := by
  rw [has_eq_testBit, getD_remove, if_pos rfl,
    testBit_andNot _ _ _ (Nat.mod_lt x (by decide)), Nat.shiftLeft_eq, Nat.one_mul,
    Nat.testBit_two_pow_self, Bool.not_true, Bool.and_false]

theorem div_mod_eq_of_eq {x y : Nat} (hw : y / N = x / N) (e : x % N = y % N) : x = y := by
  calc x = N * (x / N) + x % N := (Nat.div_add_mod x N).symm
    _ = N * (y / N) + y % N := by rw [hw, e]
    _ = y := Nat.div_add_mod y N

theorem has_add_ne (s : IntSet) (x y : Nat) (h : x ≠ y) : Has (Add s x) y = Has s y := by
  rw [has_eq_testBit, has_eq_testBit (s := s), getD_add]
  by_cases hw : y / N = x / N
  · have hb : x % N ≠ y % N := fun e => h (div_mod_eq_of_eq hw e)
    rw [if_pos hw, Nat.shiftLeft_eq, Nat.one_mul, Nat.testBit_lor,
      Nat.testBit_two_pow_of_ne hb, Bool.or_false]
  · rw [if_neg hw]

theorem has_remove_ne (s : IntSet) (x y : Nat) (h : x ≠ y) : Has (Remove s x) y = Has s y := by
  rw [has_eq_testBit, has_eq_testBit (s := s), getD_remove]
  by_cases hw : y / N = x / N
  · have hb : x % N ≠ y % N := fun e => h (div_mod_eq_of_eq hw e)
    rw [if_pos hw, testBit_andNot _ _ _ (Nat.mod_lt y (by decide)), Nat.shiftLeft_eq,
      Nat.one_mul, Nat.testBit_two_pow_of_ne hb, Bool.not_false, Bool.and_true]
  · rw [if_neg hw]

theorem has_union (s t : IntSet) (x : Nat) :
    Has (UnionWith s t) x = (Has s x || Has t x) := by
  rw [has_eq_testBit, has_eq_testBit, has_eq_testBit, getD_union, Nat.testBit_lor]

/-- Claim C2: for every set `s` and non-negative `x`, immediately after
`Add x` membership of `x` holds, and after a subsequent `Remove x` it no
longer holds. -/
theorem C2_add_then_has_then_remove (s : IntSet) (x : Nat) :
    Has (Add s x) x = true ∧ Has (Remove (Add s x) x) x = false :=
  ⟨has_add_self s x, has_remove_self (Add s x) x⟩

/-- Claim C3: `SymmetricDifference` is self-inverse in membership —
applying the same operand `B` twice leaves `A` with its original
membership at every non-negative `x`. -/
theorem C3_symmetric_difference_self_inverse (A B : IntSet) (x : Nat) :
    Has (SymmetricDifference (SymmetricDifference A B) B) x = Has A x := by
  rw [has_eq_testBit, has_eq_testBit, getD_symmDiff, getD_symmDiff,
    Nat.xor_assoc, Nat.xor_self, Nat.xor_zero]

/-- Claim C4: `UnionWith` is commutative in membership: `A ∪ B` and
`B ∪ A` agree on `Has x` for every non-negative `x`. -/
theorem C4_union_commutative_membership (A B : IntSet) (x : Nat) :
    Has (UnionWith A B) x = Has (UnionWith B A) x := by
  rw [has_union, has_union, Bool.or_comm]

/-- Claim C5: after `Clear` the set behaves as a freshly zero-initialized
set: zero length, empty element list, rendering as the empty braces, and
no member at any non-negative `x`. -/
theorem C5_clear_resets_to_empty (s : IntSet) (x : Nat) :
    Len (Clear s) = 0 ∧ Elems (Clear s) = [] ∧ String' (Clear s) = "\x7b\x7d"
      ∧ Has (Clear s) x = false := by
  refine ⟨rfl, rfl, rfl, ?_⟩
  simp [Has, Clear]

/-- Claim C8: `Remove` of an element whose word index is out of range is a
no-op, and `Remove` never changes the word-sequence length. -/
theorem C8_remove_noop_never_shrinks (s : IntSet) (x : Nat) :
    (s.words.length ≤ x / N → Remove s x = s)
      ∧ (Remove s x).words.length = s.words.length := by
  constructor
  · intro h
    simp [Remove, h]
  · by_cases h : s.words.length ≤ x / N
    · simp [Remove, h]
    · simp [Remove, h]

theorem C8_remove_noop_never_shrinks_witness :
    ((⟨[1]⟩ : IntSet).words.length ≤ 64 / N ∧ Remove ⟨[1]⟩ 64 = ⟨[1]⟩)
      ∧ (Remove ⟨[1]⟩ 64).words.length = (⟨[1]⟩ : IntSet).words.length :=
  ⟨⟨by decide, (C8_remove_noop_never_shrinks ⟨[1]⟩ 64).1 (by decide)⟩,
    (C8_remove_noop_never_shrinks ⟨[1]⟩ 64).2⟩

/-- Claim C10: point mutations are frame-local: for distinct non-negative
`x` and `y`, `Add x` and `Remove x` leave `Has y` unchanged. -/
theorem C10_point_mutations_frame_local (s : IntSet) (x y : Nat) (h : x ≠ y) :
    Has (Add s x) y = Has s y ∧ Has (Remove s x) y = Has s y :=
  ⟨has_add_ne s x y h, has_remove_ne s x y h⟩

theorem C10_point_mutations_frame_local_witness :
    (0 : Nat) ≠ 2
      ∧ (Has (Add ⟨[5]⟩ 0) 2 = Has ⟨[5]⟩ 2 ∧ Has (Remove ⟨[5]⟩ 0) 2 = Has ⟨[5]⟩ 2) :=
  ⟨by decide, C10_point_mutations_frame_local ⟨[5]⟩ 0 2 (by decide)⟩

/-- Claim C1 fails on the code: with `s = \x7b64\x7d` (words `[0, 1]`) and
`t = \x7b0\x7d` (words `[1]`), element `64` has word index `1 ≥ len t.words`,
yet after `IntersectWith` the receiver still contains `64` and its word at
index `1` still reads `1`, not `0`: the loop in intset.go:52-59 stops at
`t`'s length and never clears the receiver's tail. -/
theorem C1_intersect_retains_receiver_tail :
    Has (IntersectWith ⟨[0, 1]⟩ ⟨[1]⟩) 64 = true
      ∧ Has (⟨[1]⟩ : IntSet) 64 = false
      ∧ (⟨[1]⟩ : IntSet).words.length ≤ 64 / N
      ∧ (IntersectWith ⟨[0, 1]⟩ ⟨[1]⟩).words.getD 1 0 = 1 := by decide

end IntSet

/-!  Trailing zero words are invisible to every observer (claim C9). -/

namespace IntSet

theorem foldl_id {α β : Type} (f : α → β → α) :
    ∀ (l : List β), (∀ a b, b ∈ l → f a b = a) → ∀ a, l.foldl f a = a
  | [], _, _ => rfl
  | b :: l, h, a => by
    rw [List.foldl_cons, h a b (List.mem_cons_self b l)]
    exact foldl_id f l (fun a c hc => h a c (List.mem_cons_of_mem _ hc)) a

theorem snd_eq_zero_of_mem_enumFrom_replicate :
    ∀ (k n : Nat) (p : Nat × Nat), p ∈ List.enumFrom n (List.replicate k 0) → p.2 = 0
  | 0, _, _, h => absurd h (List.not_mem_nil _)
  | k + 1, n, p, h => by
    rw [List.replicate_succ, List.enumFrom_cons] at h
    rcases List.mem_cons.1 h with h | h
    · rw [h]
    · exact snd_eq_zero_of_mem_enumFrom_replicate k (n + 1) p h

theorem elems_inner_zero_word (i : Nat) (res : List Nat) :
    (List.range N).foldl
      (fun res j => if (0 : Nat) &&& (1 <<< j) != 0 then res ++ [i * N + j] else res) res = res :=
  foldl_id _ _ (fun a j _ => by simp [Nat.zero_and]) res

theorem has_append_replicate_zero (ws : List Nat) (k y : Nat) :
    Has ⟨ws ++ List.replicate k 0⟩ y = Has ⟨ws⟩ y := by
  rw [has_eq_testBit, has_eq_testBit]
  simp only []
  rw [getD_append_replicate_zero]

theorem len_append_replicate_zero (ws : List Nat) (k : Nat) :
    Len ⟨ws ++ List.replicate k 0⟩ = Len ⟨ws⟩ := by
  simp only [Len]
  rw [List.foldl_append]
  exact foldl_id _ _
    (fun n w hw => by rw [List.eq_of_mem_replicate hw]; rfl) _

theorem elems_append_replicate_zero (ws : List Nat) (k : Nat) :
    Elems ⟨ws ++ List.replicate k 0⟩ = Elems ⟨ws⟩ := by
  simp only [Elems]
  rw [List.enum_append, List.foldl_append]
  refine foldl_id _ _ (fun res p hp => ?_) _
  obtain ⟨i, w⟩ := p
  have h2 : w = 0 := snd_eq_zero_of_mem_enumFrom_replicate k ws.length (i, w) hp
  subst h2
  exact elems_inner_zero_word i res

theorem string_append_replicate_zero (ws : List Nat) (k : Nat) :
    String' ⟨ws ++ List.replicate k 0⟩ = String' ⟨ws⟩ := by
  simp only [String']
  rw [List.enum_append, List.foldl_append]
  refine congrArg (· ++ "\x7d") ?_
  refine foldl_id _ _ (fun buf p hp => ?_) _
  obtain ⟨i, w⟩ := p
  have h2 : w = 0 := snd_eq_zero_of_mem_enumFrom_replicate k ws.length (i, w) hp
  subst h2
  rfl

/-- Claim C9: observers are insensitive to trailing zero words: a set and
the same set with extra trailing zero words agree on `Has` at every
non-negative `y`, on `Len`, on `Elems`, and on the string rendering. -/
theorem C9_observers_ignore_trailing_zero_words (ws : List Nat) (k y : Nat) :
    Has ⟨ws ++ List.replicate k 0⟩ y = Has ⟨ws⟩ y
      ∧ Len ⟨ws ++ List.replicate k 0⟩ = Len ⟨ws⟩
      ∧ Elems ⟨ws ++ List.replicate k 0⟩ = Elems ⟨ws⟩
      ∧ String' ⟨ws ++ List.replicate k 0⟩ = String' ⟨ws⟩ :=
  ⟨has_append_replicate_zero ws k y, len_append_replicate_zero ws k,
    elems_append_replicate_zero ws k, string_append_replicate_zero ws k⟩

end IntSet

/-!  Copy independence on the explicit heap (claim C7). -/

namespace IntSet

theorem getD_append_lt {α : Type} (d : α) :
    ∀ (l₁ l₂ : List α) (i : Nat), i < l₁.length → (l₁ ++ l₂).getD i d = l₁.getD i d
  | _ :: _, _, 0, _ => rfl
  | _ :: l₁, l₂, i + 1, h => getD_append_lt d l₁ l₂ i (Nat.lt_of_succ_lt_succ h)

theorem getD_append_len {α : Type} (d : α) :
    ∀ (l : List α) (a : α), (l ++ [a]).getD l.length d = a
  | [], _ => rfl
  | _ :: l, a => getD_append_len d l a

theorem getD_set_ne_gen {α : Type} (d : α) :
    ∀ (l : List α) (i j : Nat) (v : α), j ≠ i → (l.set i v).getD j d = l.getD j d
  | [], _, _, _, _ => rfl
  | _ :: _, 0, 0, _, h => absurd rfl h
  | _ :: _, 0, _ + 1, _, _ => rfl
  | _ :: _, _ + 1, 0, _, _ => rfl
  | _ :: l, i + 1, j + 1, v, h =>
    getD_set_ne_gen d l i j v (fun e => h (congrArg Nat.succ e))

/-- Claim C7: `Copy` allocates a fresh backing array with identical
contents (hence identical membership), and a subsequent `Add` or `Remove`
through either the copy or the original leaves the other's array
untouched. -/
theorem C7_copy_fresh_and_independent (h : Heap) (p x y : Nat) (hp : p < h.length) :
    (CopyH h p).2 ≠ p
      ∧ heapGet (CopyH h p).1 (CopyH h p).2 = heapGet (CopyH h p).1 p
      ∧ Has ⟨heapGet (CopyH h p).1 (CopyH h p).2⟩ y = Has ⟨heapGet (CopyH h p).1 p⟩ y
      ∧ heapGet (AddH (CopyH h p).1 (CopyH h p).2 x) p = heapGet (CopyH h p).1 p
      ∧ heapGet (RemoveH (CopyH h p).1 (CopyH h p).2 x) p = heapGet (CopyH h p).1 p
      ∧ heapGet (AddH (CopyH h p).1 p x) (CopyH h p).2 = heapGet (CopyH h p).1 (CopyH h p).2
      ∧ heapGet (RemoveH (CopyH h p).1 p x) (CopyH h p).2
          = heapGet (CopyH h p).1 (CopyH h p).2 := by
  have hqp : h.length ≠ p := Nat.ne_of_gt hp
  have hpq : p ≠ h.length := Nat.ne_of_lt hp
  have hgq : heapGet (CopyH h p).1 (CopyH h p).2 = heapGet h p := getD_append_len [] h _
  have hgp : heapGet (CopyH h p).1 p = heapGet h p := getD_append_lt [] h _ p hp
  refine ⟨hqp, hgq.trans hgp.symm, by rw [hgq.trans hgp.symm], ?_, ?_, ?_, ?_⟩
  · exact getD_set_ne_gen [] _ _ _ _ hpq
  · exact getD_set_ne_gen [] _ _ _ _ hpq
  · exact getD_set_ne_gen [] _ _ _ _ hqp
  · exact getD_set_ne_gen [] _ _ _ _ hqp

theorem C7_copy_fresh_and_independent_witness :
    (0 : Nat) < ([[1]] : Heap).length
      ∧ ((CopyH [[1]] 0).2 ≠ 0
        ∧ heapGet (CopyH [[1]] 0).1 (CopyH [[1]] 0).2 = heapGet (CopyH [[1]] 0).1 0
        ∧ Has ⟨heapGet (CopyH [[1]] 0).1 (CopyH [[1]] 0).2⟩ 0
            = Has ⟨heapGet (CopyH [[1]] 0).1 0⟩ 0
        ∧ heapGet (AddH (CopyH [[1]] 0).1 (CopyH [[1]] 0).2 3) 0 = heapGet (CopyH [[1]] 0).1 0
        ∧ heapGet (RemoveH (CopyH [[1]] 0).1 (CopyH [[1]] 0).2 3) 0
            = heapGet (CopyH [[1]] 0).1 0
        ∧ heapGet (AddH (CopyH [[1]] 0).1 0 3) (CopyH [[1]] 0).2
            = heapGet (CopyH [[1]] 0).1 (CopyH [[1]] 0).2
        ∧ heapGet (RemoveH (CopyH [[1]] 0).1 0 3) (CopyH [[1]] 0).2
            = heapGet (CopyH [[1]] 0).1 (CopyH [[1]] 0).2) :=
  ⟨by decide, C7_copy_fresh_and_independent [[1]] 0 3 0 (by decide)⟩

end IntSet

/-!  The rendering of `String'` factors through the ascending element list
(claim C6). -/

namespace IntSet

theorem foldl_snoc_filter {α β : Type} (p : α → Bool) (f : α → β) :
    ∀ (l : List α) (res : List β),
      l.foldl (fun r j => if p j then r ++ [f j] else r) res = res ++ (l.filter p).map f
  | [], res => (List.append_nil res).symm
  | a :: l, res => by
    cases hp : p a with
    | true =>
      simp only [List.foldl_cons, hp, if_true, List.filter_cons, List.map_cons]
      rw [foldl_snoc_filter p f l]
      simp [List.append_assoc]
    | false =>
      simp only [List.foldl_cons, hp, if_false, List.filter_cons, Bool.false_eq_true]
      rw [foldl_snoc_filter p f l]

theorem string_inner_foldl (w i : Nat) :
    ∀ (l : List Nat) (buf : String),
      l.foldl (fun buf j => if w &&& (1 <<< j) == 0 then buf else emit buf (i * N + j)) buf
        = ((l.filter (fun j => w &&& (1 <<< j) != 0)).map (fun j => i * N + j)).foldl emit buf
  | [], _ => rfl
  | a :: l, buf => by
    cases hp : (w &&& (1 <<< a) == 0) with
    | true =>
      have hb : (w &&& (1 <<< a) != 0) = false := by simp [bne, hp]
      simp only [List.foldl_cons, hp, if_true, List.filter_cons, hb, Bool.false_eq_true]
      rw [string_inner_foldl w i l]
      simp
    | false =>
      have hb : (w &&& (1 <<< a) != 0) = true := by simp [bne, hp]
      simp only [List.foldl_cons, hp, if_false, List.filter_cons, hb, if_true,
        List.map_cons, Bool.false_eq_true]
      rw [string_inner_foldl w i l]

theorem elems_outer_foldl :
    ∀ (ws : List Nat) (n : Nat) (res : List Nat),
      (List.enumFrom n ws).foldl (fun res p =>
        (List.range N).foldl (fun res j =>
          if p.2 &&& (1 <<< j) != 0 then res ++ [p.1 * N + j] else res) res) res
        = res ++ elemsFrom n ws
  | [], _, res => (List.append_nil res).symm
  | w :: ws, n, res => by
    simp only [List.enumFrom_cons, List.foldl_cons]
    rw [elems_outer_foldl ws (n + 1),
      foldl_snoc_filter (fun j => w &&& (1 <<< j) != 0) (fun j => n * N + j)]
    simp [elemsFrom, wordElems, bitsOf, List.append_assoc]

theorem string_outer_foldl :
    ∀ (ws : List Nat) (n : Nat) (buf : String),
      (List.enumFrom n ws).foldl (fun buf p =>
        if p.2 == 0 then buf
        else (List.range N).foldl (fun buf j =>
          if p.2 &&& (1 <<< j) == 0 then buf else emit buf (p.1 * N + j)) buf) buf
        = (elemsFrom n ws).foldl emit buf
  | [], _, _ => rfl
  | w :: ws, n, buf => by
    simp only [List.enumFrom_cons, List.foldl_cons]
    by_cases hw : w = 0
    · subst hw
      have hb : bitsOf 0 = [] := by simp [bitsOf, Nat.zero_and]
      simp only [beq_self_eq_true, if_true]
      rw [string_outer_foldl ws (n + 1)]
      simp [elemsFrom, wordElems, hb]
    · have hw' : (w == 0) = false := by simp [hw]
      simp only [hw', if_false, Bool.false_eq_true]
      rw [string_outer_foldl ws (n + 1), string_inner_foldl w n]
      rw [show elemsFrom n (w :: ws) = wordElems n w ++ elemsFrom (n + 1) ws from rfl,
        List.foldl_append]
      rfl

/-- Listing `Elems` produces exactly the elements contributed word by word. -/
theorem elems_eq_elemsFrom (s : IntSet) : Elems s = elemsFrom 0 s.words := by
  simp only [Elems, List.enum]
  rw [elems_outer_foldl s.words 0 []]
  exact List.nil_append _

/-- Rendering `String'` builds the word-by-word element list through `emit`. -/
theorem string_eq_foldl_emit (s : IntSet) :
    String' s = (elemsFrom 0 s.words).foldl emit "\x7b" ++ "\x7d" := by
  simp only [String', List.enum]
  rw [string_outer_foldl s.words 0]

end IntSet

namespace IntSet

theorem wordElems_succ (n w : Nat) :
    wordElems (n + 1) w = (wordElems n w).map (fun x => N + x) := by
  rw [wordElems, wordElems, List.map_map]
  exact List.map_congr_left (fun a _ => by show (n + 1) * N + a = N + (n * N + a); ring)

theorem elemsFrom_succ : ∀ (ws : List Nat) (n : Nat),
    elemsFrom (n + 1) ws = (elemsFrom n ws).map (fun x => N + x)
  | [], _ => rfl
  | w :: ws, n => by
    show wordElems (n + 1) w ++ elemsFrom (n + 2) ws
      = (wordElems n w ++ elemsFrom (n + 1) ws).map (fun x => N + x)
    rw [List.map_append, wordElems_succ, elemsFrom_succ ws (n + 1)]

theorem wordElems_zero (w : Nat) : wordElems 0 w = bitsOf w := by
  rw [wordElems]
  have h : (fun j : Nat => 0 * N + j) = fun j : Nat => j := funext fun j => by simp
  rw [h, List.map_id']

theorem has_head (w : Nat) (ws : List Nat) (x : Nat) (hx : x < N) :
    Has ⟨w :: ws⟩ x = (w &&& (1 <<< x) != 0) := by
  simp [Has, Nat.div_eq_of_lt hx, Nat.mod_eq_of_lt hx]

theorem has_cons_shift (w : Nat) (ws : List Nat) (y : Nat) :
    Has ⟨w :: ws⟩ (N + y) = Has ⟨ws⟩ y := by
  have hdiv : (N + y) / N = y / N + 1 := by
    rw [Nat.add_comm]; exact Nat.add_div_right y (by decide)
  have hmod : (N + y) % N = y % N := Nat.add_mod_left N y
  simp [Has, hdiv, hmod, Nat.succ_lt_succ_iff]

theorem elemsFrom_zero_eq_members : ∀ (ws : List Nat),
    elemsFrom 0 ws = (List.range (ws.length * N)).filter (fun x => Has ⟨ws⟩ x)
  | [] => by simp [elemsFrom]
  | w :: ws => by
    have hlen : (w :: ws).length * N = N + ws.length * N := by
      rw [List.length_cons]; ring
    rw [hlen, List.range_add, List.filter_append, List.filter_map]
    have hp1 : (List.range N).filter (fun x => Has ⟨w :: ws⟩ x) = wordElems 0 w := by
      rw [wordElems_zero, bitsOf]
      exact List.filter_congr fun x hx => has_head w ws x (List.mem_range.mp hx)
    have hp2 : (List.range (ws.length * N)).filter ((fun x => Has ⟨w :: ws⟩ x) ∘ (N + ·))
        = (List.range (ws.length * N)).filter (fun y => Has ⟨ws⟩ y) :=
      List.filter_congr fun y _ => has_cons_shift w ws y
    rw [hp1, hp2, ← elemsFrom_zero_eq_members ws, ← elemsFrom_succ ws 0]
    rfl

/-- The word-by-word element list is exactly the ascending member list. -/
theorem elemsFrom_eq_membersAsc (s : IntSet) : elemsFrom 0 s.words = membersAsc s := by
  rw [membersAsc]
  exact elemsFrom_zero_eq_members s.words

end IntSet

namespace IntSet

theorem toDigitsCore_length_le : ∀ (b fuel n : Nat) (ds : List Char),
    ds.length ≤ (Nat.toDigitsCore b fuel n ds).length
  | _, 0, _, _ => Nat.le_refl _
  | b, fuel + 1, n, ds => by
    simp only [Nat.toDigitsCore]
    by_cases h : n / b = 0
    · rw [if_pos h]
      exact Nat.le_succ _
    · rw [if_neg h]
      exact Nat.le_trans (Nat.le_succ _)
        (toDigitsCore_length_le b fuel (n / b) (Nat.digitChar (n % b) :: ds))

theorem length_toString_pos (n : Nat) : 0 < (toString n).length := by
  show 0 < (Nat.repr n).length
  rw [Nat.repr, Nat.toDigits]
  show 0 < (Nat.toDigitsCore 10 (n + 1) n []).length
  simp only [Nat.toDigitsCore]
  by_cases h : n / 10 = 0
  · rw [if_pos h]
    exact Nat.one_pos
  · rw [if_neg h]
    exact Nat.lt_of_lt_of_le Nat.one_pos
      (toDigitsCore_length_le 10 n (n / 10) [Nat.digitChar (n % 10)])

theorem foldl_emit_of_long : ∀ (es : List Nat) (buf : String), 1 < buf.length →
    es.foldl emit buf = buf ++ sepRender es
  | [], buf, _ => (String.append_empty buf).symm
  | e :: es, buf, h => by
    rw [List.foldl_cons]
    have he : emit buf e = buf ++ " " ++ toString e := by rw [emit, if_pos h]
    have hlen : 1 < (emit buf e).length := by
      rw [he, String.length_append, String.length_append]
      omega
    rw [foldl_emit_of_long es _ hlen, he]
    simp [sepRender, String.append_assoc]

theorem renderElems_eq_sepRender : ∀ (e : Nat) (es : List Nat),
    renderElems (e :: es) = toString e ++ sepRender es
  | _, [] => (String.append_empty _).symm
  | e, f :: fs => by
    show toString e ++ " " ++ renderElems (f :: fs) = toString e ++ sepRender (f :: fs)
    rw [renderElems_eq_sepRender f fs]
    simp [sepRender, String.append_assoc]

theorem foldl_emit_brace : ∀ (es : List Nat), es.foldl emit "\x7b" = "\x7b" ++ renderElems es
  | [] => (String.append_empty _).symm
  | e :: es => by
    rw [List.foldl_cons]
    have he : emit "\x7b" e = "\x7b" ++ toString e := by
      rw [emit, if_neg (by decide)]
    have hlen : 1 < (emit "\x7b" e).length := by
      rw [he, String.length_append]
      have hp := length_toString_pos e
      have h1 : ("\x7b" : String).length = 1 := rfl
      omega
    rw [foldl_emit_of_long es _ hlen, he, renderElems_eq_sepRender, String.append_assoc]

/-- Claim C6: `String'` renders the opening brace, the members in
ascending numeric order as decimal integers separated by single spaces,
and the closing brace; and any set whose word sequence holds only zero
words (in particular the empty one) renders as the empty braces. -/
theorem C6_string_renders_ascending_members (s : IntSet) (k : Nat) :
    String' s = "\x7b" ++ renderElems (membersAsc s) ++ "\x7d"
      ∧ String' ⟨List.replicate k 0⟩ = "\x7b\x7d" := by
  constructor
  · rw [string_eq_foldl_emit, foldl_emit_brace, elemsFrom_eq_membersAsc]
  · rw [show (⟨List.replicate k 0⟩ : IntSet) = ⟨[] ++ List.replicate k 0⟩ from rfl,
      string_append_replicate_zero [] k]
    rfl

end IntSet
